import Mathlib

/-!
Shallow embedding of the `icpc_trainer` repository (FSRS scheduling logic,
the test-running workflow, output normalization and the daily-review query),
together with theorems settling the specification claims.

Conventions of the embedding:
* Python floats are modelled as exact rationals (`ℚ`).
* `datetime` values are modelled as rational timestamps measured in days;
  `timedelta(days=k)` is addition of `k`.  `datetime.utcnow()` inside
  `calculate_next_review` is modelled by an explicit `now` parameter.
* Python text is modelled as `List Char`; `str.strip`/`rstrip` strip the
  ASCII whitespace characters Python recognises.
* The fallible `Rating(rating)` conversion (which raises `ValueError` on an
  integer outside 1..4) is modelled with `Option`.
-/

/-! ## fsrs_logic.py -/

/-- The `Rating` IntEnum of `fsrs_logic.py` (AGAIN=1, HARD=2, GOOD=3, EASY=4). -/
inductive Rating where
  | AGAIN
  | HARD
  | GOOD
  | EASY
deriving DecidableEq, Repr

/-- `Rating(n)`: succeeds exactly on the enum values 1..4, else raises
`ValueError` (modelled as `none`). -/
def Rating.ofInt? (n : ℤ) : Option Rating :=
  if n = 1 then some .AGAIN
  else if n = 2 then some .HARD
  else if n = 3 then some .GOOD
  else if n = 4 then some .EASY
  else none

/-- `FSRSReviewState` dataclass: prior stability, difficulty and review time. -/
structure FSRSReviewState where
  stability : ℚ
  difficulty : ℚ
  last_reviewed : ℚ
deriving DecidableEq, Repr

/-- `FSRSUpdateResult` dataclass. -/
structure FSRSUpdateResult where
  stability : ℚ
  difficulty : ℚ
  last_reviewed : ℚ
  next_review_date : ℚ
deriving DecidableEq, Repr

/-- `_clamp(value, low, high) = max(low, min(high, value))`. -/
def _clamp (value low high : ℚ) : ℚ :=
  max low (min high value)

/-- `_retrievability`: `(1 + safe_days / (9 * safe_stability)) ** -1` with
`safe_stability = max(stability, 0.1)` and `safe_days = max(elapsed_days, 0)`. -/
def _retrievability (stability elapsed_days : ℚ) : ℚ :=
  (1 + (max elapsed_days 0) / (9 * max stability 0.1))⁻¹

/-- Python's built-in `round` on a rational: round half to even. -/
def pyRound (x : ℚ) : ℤ :=
  let f := ⌊x⌋
  let r := x - (f : ℚ)
  if r < 1 / 2 then f
  else if 1 / 2 < r then f + 1
  else if f % 2 = 0 then f else f + 1

/-- `calculate_next_review(last_state, rating, elapsed_days)`; the internal
`datetime.utcnow()` is the parameter `now`, and the `ValueError` of
`Rating(rating)` is `none`. -/
def calculate_next_review (last_state : FSRSReviewState) (rating : ℤ)
    (elapsed_days : ℚ) (now : ℚ) : Option FSRSUpdateResult :=
  match Rating.ofInt? rating with
  | none => none
  | some rating_value =>
    let previous_stability := max last_state.stability 0.1
    let previous_difficulty := _clamp last_state.difficulty 1 10
    let retrievability := _retrievability previous_stability elapsed_days
    match rating_value with
    | .AGAIN =>
      let new_difficulty := _clamp (previous_difficulty + 0.6 * (1 - retrievability)) 1 10
      let new_stability := max 0.1 (previous_stability * (0.35 + 0.25 * retrievability))
      let next_interval_days : ℤ := 1
      some { stability := new_stability, difficulty := new_difficulty,
             last_reviewed := now, next_review_date := now + (next_interval_days : ℚ) }
    | rv =>
      let params : ℚ × ℚ × ℚ :=
        match rv with
        | .HARD => (0.15, 0.9, 1.3)
        | .GOOD => (-0.1, 1.2, 2.4)
        | _ => (-0.3, 1.5, 3.2)
      let difficulty_delta := params.1
      let recall_bonus := params.2.1
      let interval_multiplier := params.2.2
      let new_difficulty := _clamp (previous_difficulty + difficulty_delta) 1 10
      let growth := 1 + (11 - new_difficulty) * 0.04 * (1 - retrievability) * recall_bonus
      let new_stability := max 0.1 (previous_stability * growth)
      let next_interval_days : ℤ := max 1 (pyRound (new_stability * interval_multiplier))
      some { stability := new_stability, difficulty := new_difficulty,
             last_reviewed := now, next_review_date := now + (next_interval_days : ℚ) }

/-! ## workflow.py: text helpers and `_normalize_output` -/

/-- ASCII whitespace as recognised by Python's `str.strip`/`rstrip`. -/
def pyIsSpace (c : Char) : Bool :=
  c = ' ' || c = '\t' || c = '\n' || c = '\r' || c = '\x0b' || c = '\x0c'

/-- Python `str.lstrip()`. -/
def pyLStrip (l : List Char) : List Char :=
  l.dropWhile pyIsSpace

/-- Python `str.rstrip()`: whitespace removed from the right end. -/
def pyRStrip (l : List Char) : List Char :=
  l.rdropWhile pyIsSpace

/-- Python `str.strip()`: whitespace removed from both ends. -/
def pyStrip (l : List Char) : List Char :=
  pyRStrip (pyLStrip l)

/-- `content.replace("\r\n", "\n")`: one left-to-right pass over the text. -/
def replaceCRLF : List Char → List Char
  | '\r' :: '\n' :: rest => '\n' :: replaceCRLF rest
  | c :: rest => c :: replaceCRLF rest
  | [] => []

/-- `content.replace("\r", "\n")`. -/
def replaceCR (l : List Char) : List Char :=
  l.map fun c => if c = '\r' then '\n' else c

/-- Python `str.split("\n")`: always returns at least one piece; the empty
string splits to `[""]`. -/
def splitNl : List Char → List (List Char)
  | [] => [[]]
  | c :: rest =>
    if c = '\n' then [] :: splitNl rest
    else
      match splitNl rest with
      | [] => [[c]]
      | l :: ls => (c :: l) :: ls

/-- Python `"\n".join(lines)`. -/
def joinNl : List (List Char) → List Char
  | [] => []
  | [l] => l
  | l :: ls => l ++ '\n' :: joinNl ls

/-- `WorkflowManager._normalize_output`: collapse `\r\n` and `\r` to `\n`,
strip the whole text, then right-trim each line and rejoin with `\n`. -/
def _normalize_output (content : List Char) : List Char :=
  let normalized := replaceCR (replaceCRLF content)
  joinNl ((splitNl (pyStrip normalized)).map pyRStrip)

/-- A line consisting purely of whitespace (a "blank line"). -/
def isBlankLine (l : List Char) : Bool :=
  l.all pyIsSpace

/-- Modelled from the spec's words for comparison with `_normalize_output`
(claim C3): collapse line endings, drop only the leading and trailing blank
LINES (keeping the remaining lines' own leading characters intact), and
right-trim every remaining line. -/
def normalizeAsClaimed (content : List Char) : List Char :=
  let normalized := replaceCR (replaceCRLF content)
  let lines := splitNl normalized
  let kept := ((lines.dropWhile isBlankLine).reverse.dropWhile isBlankLine).reverse
  joinNl (kept.map pyRStrip)

/-! ## workflow.py: `run_tests` -/

/-- The data of one sample test case as seen by `run_tests`: the file stem
(the input file is `stem ++ ".in"`), the contents of the matching `.out`
file when it exists, and the outcome of running the compiled solution on
the input (exit code, stdout, stderr). -/
structure TestCase where
  stem : List Char
  expectedOut : Option (List Char)
  runExit : ℤ
  runStdout : List Char
  runStderr : List Char

/-- The input file name of a case, `stem ++ ".in"`. -/
def TestCase.inName (tc : TestCase) : List Char :=
  tc.stem ++ ".in".toList

/-- Lexicographic order on file names, as Python's `sorted` compares them. -/
def nameLe : List Char → List Char → Bool
  | [], _ => true
  | _ :: _, [] => false
  | a :: as, b :: bs => if a = b then nameLe as bs else decide (a < b)

/-- Insert into a sorted list, keeping earlier elements first on ties. -/
def insertLe {α : Type} (le : α → α → Bool) (a : α) : List α → List α
  | [] => [a]
  | b :: bs => if le a b then a :: b :: bs else b :: insertLe le a bs

/-- Stable insertion sort with a boolean comparison. -/
def sortLe {α : Type} (le : α → α → Bool) (l : List α) : List α :=
  l.foldr (insertLe le) []

/-- The diagnostic block `run_tests` records for one case: a missing `.out`
file, a non-zero exit, or a wrong answer; `none` when the case passes. -/
def caseDiagnostic (tc : TestCase) : Option (List Char) :=
  match tc.expectedOut with
  | none => some ("Missing expected output file: ".toList ++ tc.stem ++ ".out".toList)
  | some expected_output =>
    if tc.runExit ≠ 0 then
      some ("[".toList ++ tc.stem ++ ".in] Runtime error (code ".toList
        ++ (toString tc.runExit).toList ++ "):\n".toList ++ pyStrip tc.runStderr)
    else if _normalize_output tc.runStdout ≠ _normalize_output expected_output then
      some ("[".toList ++ tc.stem ++ ".in] Wrong answer\nExpected:\n".toList
        ++ pyRStrip expected_output ++ "\nGot:\n".toList ++ pyRStrip tc.runStdout)
    else none

/-- The `for input_file in input_files` loop of `run_tests`, carrying
`all_passed` and the accumulated `logs`. -/
def runLoop : List TestCase → Bool → List (List Char) → Bool × List (List Char)
  | [], all_passed, logs => (all_passed, logs)
  | tc :: rest, all_passed, logs =>
    match caseDiagnostic tc with
    | some msg => runLoop rest false (logs ++ [msg])
    | none => runLoop rest all_passed logs

/-- `"\n\n".join(logs)`. -/
def joinLogs : List (List Char) → List Char
  | [] => []
  | [l] => l
  | l :: ls => l ++ "\n\n".toList ++ joinLogs ls

/-- `WorkflowManager.run_tests`: the missing-source and failed-compile early
returns, the empty-glob early return, then the per-case loop over the input
files in sorted name order, aggregated as `(all_passed, "\n\n".join(logs))`. -/
def run_tests (source_exists : Bool) (source_path : List Char)
    (compile_exit : ℤ) (compile_stderr : List Char)
    (cases : List TestCase) : Bool × List Char :=
  if source_exists = false then
    (false, "Source file not found: ".toList ++ source_path)
  else if compile_exit ≠ 0 then
    (false, if compile_stderr = [] then "Compilation failed.".toList else compile_stderr)
  else
    let input_files := sortLe (fun a b => nameLe a.inName b.inName) cases
    if input_files.isEmpty then
      (false, "No .in test files found.".toList)
    else
      let result := runLoop input_files true []
      (result.1, joinLogs result.2)

/-! ## tui.py: the daily-review query -/

/-- One joined `(Problem, FSRSState)` row, distilled to the fields the
daily-review query reads: the problem's primary key and the state's
`next_review_date` (a timestamp in days). -/
structure ReviewRow where
  problemId : ℤ
  nextReviewDate : ℚ
deriving DecidableEq, Repr

/-- The query of `_populate_daily_review`:
`select(Problem, FSRSState).join(...).where(next_review_date <= end_of_today)
.order_by(next_review_date.asc())`.  `ORDER BY` has no secondary key, so it
is modelled as a stable sort of the stored rows on `next_review_date`. -/
def _populate_daily_review (end_of_today : ℚ) (rows : List ReviewRow) : List ReviewRow :=
  sortLe (fun a b => decide (a.nextReviewDate ≤ b.nextReviewDate))
    (rows.filter fun r => decide (r.nextReviewDate ≤ end_of_today))

/-! ## Helper lemmas for the clamps -/

theorem le_clamp_low (value low high : ℚ) : low ≤ _clamp value low high :=
  le_max_left _ _

theorem clamp_le_high (value low high : ℚ) (h : low ≤ high) :
    _clamp value low high ≤ high :=
  max_le h (min_le_left _ _)

theorem clamp_eq_self (value low high : ℚ) (h₁ : low ≤ value) (h₂ : value ≤ high) :
    _clamp value low high = value := by
  unfold _clamp
  rw [min_eq_right h₂, max_eq_right h₁]

/-- C5: for every prior state (any stability and difficulty), every valid
rating 1..4 and every elapsed_days ≥ 0, the state returned by
`calculate_next_review` has difficulty in [1, 10] and stability ≥ 0.1. -/
theorem calculate_next_review_invariants (s d t : ℚ) (n : ℤ) (e now : ℚ)
    (hn : n = 1 ∨ n = 2 ∨ n = 3 ∨ n = 4) (he : 0 ≤ e)
    (res : FSRSUpdateResult)
    (hres : calculate_next_review ⟨s, d, t⟩ n e now = some res) :
    1 ≤ res.difficulty ∧ res.difficulty ≤ 10 ∧ 0.1 ≤ res.stability := by
  rcases hn with hn | hn | hn | hn <;> subst hn <;>
    simp only [calculate_next_review, Rating.ofInt?, Int.reduceEq, reduceIte,
      Option.some.injEq] at hres <;>
    subst hres <;>
    exact ⟨le_clamp_low _ _ _, clamp_le_high _ _ _ (by norm_num), le_max_left _ _⟩

theorem calculate_next_review_invariants_witness :
    ((3 : ℤ) = 1 ∨ (3 : ℤ) = 2 ∨ (3 : ℤ) = 3 ∨ (3 : ℤ) = 4) ∧ (0 : ℚ) ≤ 0 ∧
      (1 ≤ ({ stability := 1, difficulty := 4.9, last_reviewed := 100,
              next_review_date := 102 } : FSRSUpdateResult).difficulty ∧
        ({ stability := 1, difficulty := 4.9, last_reviewed := 100,
           next_review_date := 102 } : FSRSUpdateResult).difficulty ≤ 10 ∧
        0.1 ≤ ({ stability := 1, difficulty := 4.9, last_reviewed := 100,
                 next_review_date := 102 } : FSRSUpdateResult).stability) := by
  refine ⟨by norm_num, by norm_num, ?_⟩
  exact calculate_next_review_invariants 1 5 0 3 0 100 (by norm_num) (by norm_num)
    { stability := 1, difficulty := 4.9, last_reviewed := 100, next_review_date := 102 }
    (by norm_num [calculate_next_review, Rating.ofInt?, _clamp, _retrievability, pyRound,
      max_def, min_def])

/-- C6: for every prior state (any stability and difficulty) and every
elapsed time, rating Again (1) yields a next review date exactly one day
after the recorded review time. -/
theorem again_interval_one_day (s d t e now : ℚ) :
    (calculate_next_review ⟨s, d, t⟩ 1 e now).map
      (fun r => r.next_review_date - r.last_reviewed) = some 1 := by
  simp only [calculate_next_review, Rating.ofInt?, Int.reduceEq, reduceIte, Option.map_some]
  norm_num

/-- C10: `calculate_next_review` produces a result exactly for the rating
values 1..4; every other integer rating makes the `Rating` conversion fail
(`ValueError`, modelled as `none`). -/
theorem rating_validation (s d t e now : ℚ) (n : ℤ) :
    (calculate_next_review ⟨s, d, t⟩ n e now).isSome = true ↔
      (n = 1 ∨ n = 2 ∨ n = 3 ∨ n = 4) := by
  simp only [calculate_next_review, Rating.ofInt?]
  split_ifs with h1 h2 h3 h4 <;> simp_all

/-- C7: every result of `calculate_next_review` has its next review date at
or after the recorded review time, and the two differ by an integer number
of days that is at least 1. -/
theorem interval_at_least_one_day (s d t : ℚ) (n : ℤ) (e now : ℚ)
    (res : FSRSUpdateResult)
    (hres : calculate_next_review ⟨s, d, t⟩ n e now = some res) :
    res.last_reviewed ≤ res.next_review_date ∧
      ∃ k : ℤ, 1 ≤ k ∧ res.next_review_date = res.last_reviewed + (k : ℚ) := by
  simp only [calculate_next_review, Rating.ofInt?] at hres
  split_ifs at hres <;> simp only [Option.some.injEq] at hres <;> subst hres
  · refine ⟨?_, 1, le_refl 1, rfl⟩
    exact le_add_of_nonneg_right (by norm_num)
  all_goals
    refine ⟨?_, 1 ⊔ pyRound _, le_max_left _ _, rfl⟩
    exact le_add_of_nonneg_right (by positivity)

theorem interval_at_least_one_day_witness :
    calculate_next_review ⟨1, 5, 0⟩ 3 0 100 =
        some { stability := 1, difficulty := 4.9, last_reviewed := 100,
               next_review_date := 102 } ∧
      (({ stability := 1, difficulty := 4.9, last_reviewed := 100,
          next_review_date := 102 } : FSRSUpdateResult).last_reviewed ≤
          ({ stability := 1, difficulty := 4.9, last_reviewed := 100,
             next_review_date := 102 } : FSRSUpdateResult).next_review_date ∧
        ∃ k : ℤ, 1 ≤ k ∧
          ({ stability := 1, difficulty := 4.9, last_reviewed := 100,
             next_review_date := 102 } : FSRSUpdateResult).next_review_date =
            ({ stability := 1, difficulty := 4.9, last_reviewed := 100,
               next_review_date := 102 } : FSRSUpdateResult).last_reviewed + (k : ℚ)) := by
  have h : calculate_next_review ⟨1, 5, 0⟩ 3 0 100 =
      some { stability := 1, difficulty := 4.9, last_reviewed := 100,
             next_review_date := 102 } := by
    norm_num [calculate_next_review, Rating.ofInt?, _clamp, _retrievability, pyRound,
      max_def, min_def]
  exact ⟨h, interval_at_least_one_day 1 5 0 3 0 100 _ h⟩

/-- C8: for the Again rating, the difficulty penalty `0.6 * (1 - r)` applied
before clamping is monotone non-decreasing in the elapsed days (increasing
elapsed days can only lower the retrievability `r`). -/
theorem again_penalty_monotone (s e₁ e₂ : ℚ) (h : e₁ ≤ e₂) :
    0.6 * (1 - _retrievability s e₁) ≤ 0.6 * (1 - _retrievability s e₂) := by
  have hpos : (0 : ℚ) < 9 * max s 0.1 :=
    mul_pos (by norm_num) (lt_of_lt_of_le (by norm_num) (le_max_right s 0.1))
  have hnum : max e₁ 0 ≤ max e₂ 0 := max_le_max h le_rfl
  have hfrac : max e₁ 0 / (9 * max s 0.1) ≤ max e₂ 0 / (9 * max s 0.1) := by
    apply div_le_div_of_nonneg_right hnum hpos.le
  have hbase : (0 : ℚ) < 1 + max e₁ 0 / (9 * max s 0.1) := by
    have := div_nonneg (le_max_right e₁ 0) hpos.le
    linarith
  have hinv : (1 + max e₂ 0 / (9 * max s 0.1))⁻¹ ≤ (1 + max e₁ 0 / (9 * max s 0.1))⁻¹ := by
    apply inv_anti₀ hbase
    linarith
  unfold _retrievability
  linarith

theorem again_penalty_monotone_witness :
    (0 : ℚ) ≤ 1 ∧
      0.6 * (1 - _retrievability 1 0) ≤ 0.6 * (1 - _retrievability 1 1) :=
  ⟨by norm_num, again_penalty_monotone 1 0 1 (by norm_num)⟩

/-- C1 counterexample: at prior difficulty 11 (outside [1, 10]) with rating
Easy, the code first clamps the prior to 10 and only then adds the delta,
producing difficulty 9.7, while `clamp(prior + delta, 1, 10)` as claimed
would give 10. -/
theorem fsrs_formula_counterexample :
    calculate_next_review ⟨1, 11, 0⟩ 4 0 100 =
        some { stability := 1, difficulty := 9.7, last_reviewed := 100,
               next_review_date := 103 } ∧
      _clamp (11 + (-0.3)) 1 10 = 10 ∧ ((9.7 : ℚ) ≠ 10) := by
  refine ⟨?_, ?_, by norm_num⟩
  · norm_num [calculate_next_review, Rating.ofInt?, _clamp, _retrievability, pyRound,
      max_def, min_def]
  · norm_num [_clamp, max_def, min_def]

/-- C1 (amended): for priors already in the sanitized domain (stability at
least 0.1, difficulty in [1, 10], elapsed days nonnegative), the ratings
Hard, Good and Easy use the fixed triples (+0.15, 0.9, 1.3), (−0.1, 1.2,
2.4) and (−0.3, 1.5, 3.2); the new difficulty is `clamp(prior + delta, 1,
10)`, the growth factor is `1 + (11 − new_difficulty) * 0.04 * (1 − r) *
recall_bonus` with `r = (1 + elapsed / (9 * stability))⁻¹`, the new
stability is `max(0.1, stability * growth)` and the next interval in days
is `max(1, round(new_stability * interval_multiplier))`. -/
theorem fsrs_formulas_on_sanitized_priors (s d t e now : ℚ)
    (hs : 0.1 ≤ s) (hd₁ : 1 ≤ d) (hd₂ : d ≤ 10) (he : 0 ≤ e) :
    (calculate_next_review ⟨s, d, t⟩ 2 e now =
      (let r := (1 + e / (9 * s))⁻¹
       let nd := _clamp (d + 0.15) 1 10
       let g := 1 + (11 - nd) * 0.04 * (1 - r) * 0.9
       let ns := max 0.1 (s * g)
       some { stability := ns, difficulty := nd, last_reviewed := now,
              next_review_date := now + ((max 1 (pyRound (ns * 1.3)) : ℤ) : ℚ) })) ∧
    (calculate_next_review ⟨s, d, t⟩ 3 e now =
      (let r := (1 + e / (9 * s))⁻¹
       let nd := _clamp (d + (-0.1)) 1 10
       let g := 1 + (11 - nd) * 0.04 * (1 - r) * 1.2
       let ns := max 0.1 (s * g)
       some { stability := ns, difficulty := nd, last_reviewed := now,
              next_review_date := now + ((max 1 (pyRound (ns * 2.4)) : ℤ) : ℚ) })) ∧
    (calculate_next_review ⟨s, d, t⟩ 4 e now =
      (let r := (1 + e / (9 * s))⁻¹
       let nd := _clamp (d + (-0.3)) 1 10
       let g := 1 + (11 - nd) * 0.04 * (1 - r) * 1.5
       let ns := max 0.1 (s * g)
       some { stability := ns, difficulty := nd, last_reviewed := now,
              next_review_date := now + ((max 1 (pyRound (ns * 3.2)) : ℤ) : ℚ) })) := by
  have h₁ : max s 0.1 = s := max_eq_left hs
  have h₂ : _clamp d 1 10 = d := clamp_eq_self d 1 10 hd₁ hd₂
  have h₃ : max e 0 = e := max_eq_left he
  refine ⟨?_, ?_, ?_⟩ <;>
    simp only [calculate_next_review, Rating.ofInt?, Int.reduceEq, reduceIte,
      _retrievability, h₁, h₂, h₃]

theorem fsrs_formulas_on_sanitized_priors_witness :
    ((0.1 : ℚ) ≤ 1 ∧ (1 : ℚ) ≤ 5 ∧ (5 : ℚ) ≤ 10 ∧ (0 : ℚ) ≤ 0) ∧
      calculate_next_review ⟨1, 5, 0⟩ 3 0 100 =
        (let r := ((1 + 0 / (9 * 1) : ℚ))⁻¹
         let nd := _clamp (5 + (-0.1)) 1 10
         let g := 1 + (11 - nd) * 0.04 * (1 - r) * 1.2
         let ns := max 0.1 (1 * g)
         some { stability := ns, difficulty := nd, last_reviewed := 100,
                next_review_date := 100 + ((max 1 (pyRound (ns * 2.4)) : ℤ) : ℚ) }) :=
  ⟨⟨by norm_num, by norm_num, by norm_num, by norm_num⟩,
    (fsrs_formulas_on_sanitized_priors 1 5 0 0 100 (by norm_num) (by norm_num)
      (by norm_num) (by norm_num)).2.1⟩

theorem pyRStrip_cons (c : Char) (t : List Char) (hc : pyIsSpace c = false) :
    pyRStrip (c :: t) = c :: pyRStrip t := by
  simp only [pyRStrip]
  induction t using List.reverseRecOn with
  | nil => simp [List.rdropWhile_singleton, hc]
  | append_singleton ts x ih =>
    by_cases hx : pyIsSpace x
    · rw [show c :: (ts ++ [x]) = (c :: ts) ++ [x] from rfl,
        List.rdropWhile_concat_pos _ _ _ hx, List.rdropWhile_concat_pos _ _ _ hx, ih]
    · rw [show c :: (ts ++ [x]) = (c :: ts) ++ [x] from rfl,
        List.rdropWhile_concat_neg _ _ _ hx, List.rdropWhile_concat_neg _ _ _ hx]
      simp

theorem pyRStrip_concat_keep (t : List Char) (c : Char) (hc : pyIsSpace c = false) :
    pyRStrip (t ++ [c]) = t ++ [c] :=
  List.rdropWhile_concat_neg _ _ _ (by simp [hc])

theorem pyRStrip_idem (l : List Char) : pyRStrip (pyRStrip l) = pyRStrip l :=
  List.rdropWhile_idempotent _ _

theorem pyLStrip_idem (l : List Char) : pyLStrip (pyLStrip l) = pyLStrip l :=
  List.dropWhile_idempotent _ _

theorem pyRStrip_append_right (u v : List Char) (hv : pyRStrip v ≠ []) :
    pyRStrip (u ++ v) = u ++ pyRStrip v := by
  simp only [pyRStrip] at hv ⊢
  induction v using List.reverseRecOn with
  | nil => simp at hv
  | append_singleton vs x ih =>
    by_cases hx : pyIsSpace x
    · rw [List.rdropWhile_concat_pos _ _ _ hx] at hv ⊢
      rw [← List.append_assoc, List.rdropWhile_concat_pos _ _ _ hx]
      exact ih hv
    · rw [List.rdropWhile_concat_neg _ _ _ hx, ← List.append_assoc,
        List.rdropWhile_concat_neg _ _ _ hx, List.append_assoc]

theorem mem_pyRStrip (c : Char) (l : List Char) (h : c ∈ pyRStrip l) : c ∈ l :=
  (List.rdropWhile_prefix _ _).subset h

theorem mem_pyLStrip (c : Char) (l : List Char) (h : c ∈ pyLStrip l) : c ∈ l :=
  (List.dropWhile_suffix _).subset h

theorem mem_pyStrip (c : Char) (l : List Char) (h : c ∈ pyStrip l) : c ∈ l :=
  mem_pyLStrip c l (mem_pyRStrip c (pyLStrip l) h)

theorem pyLStrip_cons_keep (c : Char) (t : List Char) (hc : pyIsSpace c = false) :
    pyLStrip (c :: t) = c :: t := by
  simp [pyLStrip, List.dropWhile_cons, hc]

theorem pyRStrip_pyStrip (l : List Char) : pyRStrip (pyStrip l) = pyStrip l :=
  pyRStrip_idem _

theorem pyLStrip_head_false (l : List Char) (c : Char) (t : List Char)
    (hfix : pyLStrip l = l) (hl : l = c :: t) : pyIsSpace c = false := by
  subst hl
  have h2 := List.dropWhile_eq_self_iff.mp hfix (by simp)
  simpa using h2

theorem pyRStrip_last_false (l : List Char) (t : List Char) (c : Char)
    (hfix : pyRStrip l = l) (hl : l = t ++ [c]) : pyIsSpace c = false := by
  subst hl
  have h2 := List.rdropWhile_eq_self_iff.mp hfix (by simp)
  simpa using h2

theorem pyLStrip_pyStrip (l : List Char) : pyLStrip (pyStrip l) = pyStrip l := by
  unfold pyStrip
  rcases hu : pyLStrip l with _ | ⟨c, t⟩
  · simp [pyRStrip, pyLStrip]
  · have hc : pyIsSpace c = false :=
      pyLStrip_head_false (pyLStrip l) c t (pyLStrip_idem l) hu
    rw [pyRStrip_cons c t hc]
    exact pyLStrip_cons_keep c (pyRStrip t) hc

/-! ## Helper lemmas for split and join on newlines -/

theorem splitNl_ne_nil (s : List Char) : splitNl s ≠ [] := by
  induction s with
  | nil => simp [splitNl]
  | cons c rest ih =>
    by_cases hc : c = '\n'
    · simp [splitNl, hc]
    · rcases h : splitNl rest with _ | ⟨l, ls⟩
      · exact absurd h ih
      · simp [splitNl, hc, h]

theorem joinNl_cons_of_ne_nil (l : List Char) (ls : List (List Char)) (h : ls ≠ []) :
    joinNl (l :: ls) = l ++ '\n' :: joinNl ls := by
  rcases ls with _ | ⟨m, ms⟩
  · exact absurd rfl h
  · rfl

theorem joinNl_splitNl (s : List Char) : joinNl (splitNl s) = s := by
  induction s with
  | nil => rfl
  | cons c rest ih =>
    by_cases hc : c = '\n'
    · subst hc
      rw [show splitNl ('\n' :: rest) = [] :: splitNl rest by simp [splitNl],
        joinNl_cons_of_ne_nil _ _ (splitNl_ne_nil rest), List.nil_append, ih]
    · rcases h : splitNl rest with _ | ⟨l, ls⟩
      · exact absurd h (splitNl_ne_nil rest)
      · rw [show splitNl (c :: rest) = (c :: l) :: ls by simp [splitNl, hc, h]]
        rcases ls with _ | ⟨m, ms⟩
        · have : joinNl [c :: l] = c :: joinNl [l] := rfl
          rw [this, ← h, ih]
        · rw [joinNl_cons_of_ne_nil _ _ (by simp),
            show (c :: l) ++ '\n' :: joinNl (m :: ms) =
              c :: (l ++ '\n' :: joinNl (m :: ms)) from rfl,
            ← joinNl_cons_of_ne_nil l (m :: ms) (by simp), ← h, ih]

theorem mem_splitNl_mem (c : Char) : ∀ (s : List Char) (l : List Char),
    l ∈ splitNl s → c ∈ l → c ∈ s := by
  intro s
  induction s with
  | nil =>
    intro l hl hc
    simp [splitNl] at hl
    subst hl
    simp at hc
  | cons a rest ih =>
    intro l hl hc
    by_cases ha : a = '\n'
    · subst ha
      rw [show splitNl ('\n' :: rest) = [] :: splitNl rest from by simp [splitNl]] at hl
      rcases List.mem_cons.mp hl with rfl | hl
      · simp at hc
      · exact List.mem_cons_of_mem _ (ih l hl hc)
    · rcases hsp : splitNl rest with _ | ⟨m, ms⟩
      · exact absurd hsp (splitNl_ne_nil rest)
      · rw [show splitNl (a :: rest) = (a :: m) :: ms from by simp [splitNl, ha, hsp]] at hl
        rcases List.mem_cons.mp hl with rfl | hl
        · rcases List.mem_cons.mp hc with rfl | hc2
          · exact List.mem_cons_self _ _
          · exact List.mem_cons_of_mem _
              (ih m (by rw [hsp]; exact List.mem_cons_self _ _) hc2)
        · exact List.mem_cons_of_mem _
            (ih l (by rw [hsp]; exact List.mem_cons_of_mem _ hl) hc)

theorem nl_not_mem_splitNl (s : List Char) (l : List Char) (hl : l ∈ splitNl s) :
    '\n' ∉ l := by
  induction s generalizing l with
  | nil =>
    simp [splitNl] at hl
    subst hl
    simp
  | cons a rest ih =>
    by_cases ha : a = '\n'
    · subst ha
      rw [show splitNl ('\n' :: rest) = [] :: splitNl rest from by simp [splitNl]] at hl
      rcases List.mem_cons.mp hl with rfl | hl
      · simp
      · exact ih l hl
    · rcases hsp : splitNl rest with _ | ⟨m, ms⟩
      · exact absurd hsp (splitNl_ne_nil rest)
      · rw [show splitNl (a :: rest) = (a :: m) :: ms from by simp [splitNl, ha, hsp]] at hl
        rcases List.mem_cons.mp hl with rfl | hl
        · intro hmem
          rcases List.mem_cons.mp hmem with h | h
          · exact ha h.symm
          · exact ih m (by rw [hsp]; exact List.mem_cons_self _ _) h
        · exact ih l (by rw [hsp]; exact List.mem_cons_of_mem _ hl)

theorem splitNl_no_nl (m : List Char) (hm : '\n' ∉ m) : splitNl m = [m] := by
  induction m with
  | nil => rfl
  | cons a t ih =>
    have ha : a ≠ '\n' := fun h => hm (h ▸ List.mem_cons_self a t)
    have ht : '\n' ∉ t := fun h => hm (List.mem_cons_of_mem a h)
    rw [show splitNl (a :: t) = match splitNl t with
        | [] => [[a]]
        | l :: ls => (a :: l) :: ls from by simp [splitNl, ha], ih ht]

theorem splitNl_append_nl (m u : List Char) (hm : '\n' ∉ m) :
    splitNl (m ++ '\n' :: u) = m :: splitNl u := by
  induction m with
  | nil => simp [splitNl]
  | cons a t ih =>
    have ha : a ≠ '\n' := fun h => hm (h ▸ List.mem_cons_self a t)
    have ht : '\n' ∉ t := fun h => hm (List.mem_cons_of_mem a h)
    rw [List.cons_append,
      show splitNl (a :: (t ++ '\n' :: u)) = match splitNl (t ++ '\n' :: u) with
        | [] => [[a]]
        | l :: ls => (a :: l) :: ls from by simp [splitNl, ha], ih ht]

theorem splitNl_joinNl (M : List (List Char)) (hM : M ≠ [])
    (h : ∀ l ∈ M, '\n' ∉ l) : splitNl (joinNl M) = M := by
  induction M with
  | nil => exact absurd rfl hM
  | cons m M' ih =>
    rcases M' with _ | ⟨k, ks⟩
    · exact splitNl_no_nl m (h m (List.mem_cons_self _ _))
    · rw [joinNl_cons_of_ne_nil m (k :: ks) (by simp),
        splitNl_append_nl m (joinNl (k :: ks)) (h m (List.mem_cons_self _ _)),
        ih (by simp) (fun l hl => h l (List.mem_cons_of_mem m hl))]

theorem mem_joinNl (c : Char) (L : List (List Char)) (h : c ∈ joinNl L) :
    c = '\n' ∨ ∃ l ∈ L, c ∈ l := by
  induction L with
  | nil => simp [joinNl] at h
  | cons l ls ih =>
    rcases ls with _ | ⟨k, ks⟩
    · exact Or.inr ⟨l, List.mem_cons_self _ _, h⟩
    · rw [joinNl_cons_of_ne_nil l (k :: ks) (by simp)] at h
      rcases List.mem_append.mp h with h | h
      · exact Or.inr ⟨l, List.mem_cons_self _ _, h⟩
      · rcases List.mem_cons.mp h with rfl | h
        · exact Or.inl rfl
        · rcases ih h with h | ⟨m, hm, hc⟩
          · exact Or.inl h
          · exact Or.inr ⟨m, List.mem_cons_of_mem _ hm, hc⟩

theorem splitNl_concat_decomp (c : Char) (hc : c ≠ '\n') : ∀ (s : List Char),
    ∃ L₀ l₀, splitNl s = L₀ ++ [l₀] ∧ splitNl (s ++ [c]) = L₀ ++ [l₀ ++ [c]] := by
  intro s
  induction s with
  | nil =>
    refine ⟨[], [], rfl, ?_⟩
    simp [splitNl, hc]
  | cons a s' ih =>
    obtain ⟨L₀, l₀, h1, h2⟩ := ih
    by_cases ha : a = '\n'
    · subst ha
      refine ⟨[] :: L₀, l₀, ?_, ?_⟩
      · rw [show splitNl ('\n' :: s') = [] :: splitNl s' from by simp [splitNl], h1]
        rfl
      · rw [List.cons_append,
          show splitNl ('\n' :: (s' ++ [c])) = [] :: splitNl (s' ++ [c]) from by
            simp [splitNl], h2]
        rfl
    · rcases L₀ with _ | ⟨m, L₁⟩
      · refine ⟨[], a :: l₀, ?_, ?_⟩
        · rw [show splitNl (a :: s') = match splitNl s' with
              | [] => [[a]]
              | l :: ls => (a :: l) :: ls from by simp [splitNl, ha], h1]
          rfl
        · rw [List.cons_append,
            show splitNl (a :: (s' ++ [c])) = match splitNl (s' ++ [c]) with
              | [] => [[a]]
              | l :: ls => (a :: l) :: ls from by simp [splitNl, ha], h2]
          rfl
      · refine ⟨(a :: m) :: L₁, l₀, ?_, ?_⟩
        · rw [show splitNl (a :: s') = match splitNl s' with
              | [] => [[a]]
              | l :: ls => (a :: l) :: ls from by simp [splitNl, ha], h1]
          rfl
        · rw [List.cons_append,
            show splitNl (a :: (s' ++ [c])) = match splitNl (s' ++ [c]) with
              | [] => [[a]]
              | l :: ls => (a :: l) :: ls from by simp [splitNl, ha], h2]
          rcases L₁ with _ | ⟨k, ks⟩ <;> rfl

theorem joinNl_head_cons (c : Char) (w : List Char) (rest : List (List Char)) :
    ∃ u, joinNl ((c :: w) :: rest) = c :: u := by
  rcases rest with _ | ⟨k, ks⟩
  · exact ⟨w, rfl⟩
  · exact ⟨w ++ '\n' :: joinNl (k :: ks), rfl⟩

theorem joinNl_concat_ne_nil (L₀ : List (List Char)) (lN : List Char) (h : lN ≠ []) :
    joinNl (L₀ ++ [lN]) ≠ [] := by
  rcases L₀ with _ | ⟨m, ms⟩
  · simpa [joinNl] using h
  · rw [List.cons_append, joinNl_cons_of_ne_nil m (ms ++ [lN]) (by simp)]
    simp

theorem pyRStrip_joinNl_concat (L₀ : List (List Char)) (lN : List Char)
    (hfix : ∀ l ∈ L₀ ++ [lN], pyRStrip l = l) (hN : lN ≠ []) :
    pyRStrip (joinNl (L₀ ++ [lN])) = joinNl (L₀ ++ [lN]) := by
  induction L₀ with
  | nil =>
    simpa [joinNl] using hfix lN (by simp)
  | cons m L₁ ih =>
    have hfix' : ∀ l ∈ L₁ ++ [lN], pyRStrip l = l :=
      fun l hl => hfix l (List.mem_cons_of_mem m hl)
    have hj : pyRStrip (joinNl (L₁ ++ [lN])) = joinNl (L₁ ++ [lN]) := ih hfix'
    have hjne : joinNl (L₁ ++ [lN]) ≠ [] := joinNl_concat_ne_nil L₁ lN hN
    obtain ⟨t, cl, hdecomp, hcl⟩ :
        ∃ t cl, joinNl (L₁ ++ [lN]) = t ++ [cl] ∧ pyIsSpace cl = false := by
      obtain ⟨t, cl, hd⟩ : ∃ t cl, joinNl (L₁ ++ [lN]) = t ++ [cl] := by
        rcases h : joinNl (L₁ ++ [lN]) with _ | ⟨x, xs⟩
        · exact absurd h hjne
        · exact ⟨(x :: xs).dropLast, (x :: xs).getLast (by simp), by
            rw [List.dropLast_append_getLast]⟩
      exact ⟨t, cl, hd, pyRStrip_last_false _ t cl (hd ▸ hj) hd⟩
    rw [List.cons_append, joinNl_cons_of_ne_nil m (L₁ ++ [lN]) (by simp)]
    have step1 : pyRStrip ('\n' :: joinNl (L₁ ++ [lN])) = '\n' :: joinNl (L₁ ++ [lN]) := by
      rw [hdecomp, show '\n' :: (t ++ [cl]) = ('\n' :: t) ++ [cl] from rfl]
      exact pyRStrip_concat_keep ('\n' :: t) cl hcl
    rw [pyRStrip_append_right m ('\n' :: joinNl (L₁ ++ [lN])) (by rw [step1]; simp), step1]

theorem replaceCR_no_cr (l : List Char) : '\r' ∉ replaceCR l := by
  intro h
  simp only [replaceCR, List.mem_map] at h
  obtain ⟨a, _, ha⟩ := h
  by_cases hcr : a = '\r' <;> simp [hcr] at ha

theorem replaceCRLF_nil : replaceCRLF [] = [] := rfl

theorem replaceCRLF_crlf (rest : List Char) :
    replaceCRLF ('\r' :: '\n' :: rest) = '\n' :: replaceCRLF rest := rfl

theorem replaceCRLF_single (c : Char) : replaceCRLF [c] = [c] := by
  rw [replaceCRLF.eq_def]
  split
  · rename_i heq
    simp at heq
  · rename_i heq
    rw [List.cons.injEq] at heq
    rw [heq.1.symm, heq.2.symm, replaceCRLF_nil]
  · rename_i heq
    simp at heq

theorem replaceCRLF_cons_cons (a b : Char) (rest : List Char)
    (h : ¬(a = '\r' ∧ b = '\n')) :
    replaceCRLF (a :: b :: rest) = a :: replaceCRLF (b :: rest) := by
  rw [replaceCRLF.eq_def]
  split
  · rename_i heq
    rw [List.cons.injEq, List.cons.injEq] at heq
    exact absurd ⟨heq.1, heq.2.1⟩ h
  · rename_i heq
    rw [List.cons.injEq] at heq
    rw [heq.1.symm, heq.2.symm]
  · rename_i heq
    simp at heq

theorem replaceCRLF_fix (y : List Char) (h : '\r' ∉ y) : replaceCRLF y = y := by
  induction y with
  | nil => rfl
  | cons a t ih =>
    have hat : a ≠ '\r' := fun hh => h (hh ▸ List.mem_cons_self a t)
    have ht : '\r' ∉ t := fun hh => h (List.mem_cons_of_mem a hh)
    rcases t with _ | ⟨b, u⟩
    · exact replaceCRLF_single a
    · rw [replaceCRLF_cons_cons a b u (fun hab => hat hab.1), ih ht]

theorem replaceCR_fix (y : List Char) (h : '\r' ∉ y) : replaceCR y = y := by
  unfold replaceCR
  rw [List.map_congr_left, List.map_id]
  intro a ha
  have : a ≠ '\r' := fun hh => h (hh ▸ ha)
  simp [this]

theorem normalize_no_cr (x : List Char) : '\r' ∉ _normalize_output x := by
  intro h
  simp only [_normalize_output] at h
  rcases mem_joinNl _ _ h with h | ⟨l, hl, hc⟩
  · simp at h
  · obtain ⟨m, hm, rfl⟩ := List.mem_map.mp hl
    have h1 : '\r' ∈ m := mem_pyRStrip _ _ hc
    have h2 : '\r' ∈ pyStrip (replaceCR (replaceCRLF x)) := mem_splitNl_mem _ _ m hm h1
    have h3 : '\r' ∈ replaceCR (replaceCRLF x) := mem_pyStrip _ _ h2
    exact replaceCR_no_cr _ h3

theorem normalize_lines_fix (x : List Char) :
    ∀ l ∈ splitNl (_normalize_output x), pyRStrip l = l := by
  intro l hl
  simp only [_normalize_output] at hl
  have hnl : ∀ k ∈ (splitNl (pyStrip (replaceCR (replaceCRLF x)))).map pyRStrip,
      '\n' ∉ k := by
    intro k hk
    obtain ⟨m, hm, rfl⟩ := List.mem_map.mp hk
    exact fun hmem => nl_not_mem_splitNl _ m hm (mem_pyRStrip _ _ hmem)
  rw [splitNl_joinNl _ (by
      simp only [ne_eq, List.map_eq_nil_iff]
      exact splitNl_ne_nil _) hnl] at hl
  obtain ⟨m, _, rfl⟩ := List.mem_map.mp hl
  exact pyRStrip_idem m

theorem normalize_strip_fix (x : List Char) :
    pyStrip (_normalize_output x) = _normalize_output x := by
  have hy : _normalize_output x =
      joinNl ((splitNl (pyStrip (replaceCR (replaceCRLF x)))).map pyRStrip) := rfl
  have hzl : pyLStrip (pyStrip (replaceCR (replaceCRLF x))) =
      pyStrip (replaceCR (replaceCRLF x)) := pyLStrip_pyStrip _
  have hzr : pyRStrip (pyStrip (replaceCR (replaceCRLF x))) =
      pyStrip (replaceCR (replaceCRLF x)) := pyRStrip_pyStrip _
  rcases hz : pyStrip (replaceCR (replaceCRLF x)) with _ | ⟨c, t⟩
  · rw [hy, hz]
    rfl
  · have hc : pyIsSpace c = false := pyLStrip_head_false _ c t (hz ▸ hzl) hz
    have hcnl : c ≠ '\n' := fun h => by simp [pyIsSpace, h] at hc
    have hne : (c :: t : List Char) ≠ [] := by simp
    obtain ⟨t', c', hdec, hc'⟩ :
        ∃ t' c', (c :: t : List Char) = t' ++ [c'] ∧ pyIsSpace c' = false := by
      refine ⟨(c :: t).dropLast, (c :: t).getLast hne,
        (List.dropLast_append_getLast hne).symm, ?_⟩
      exact pyRStrip_last_false _ _ _ (hz ▸ hzr)
        (List.dropLast_append_getLast hne).symm
    have hcnl' : c' ≠ '\n' := fun h => by simp [pyIsSpace, h] at hc'
    obtain ⟨L₀, l₀, hs1, hs2⟩ := splitNl_concat_decomp c' hcnl' t'
    rcases hsp : splitNl t with _ | ⟨m, ms⟩
    · exact absurd hsp (splitNl_ne_nil t)
    have hhead : splitNl (c :: t) = (c :: m) :: ms := by
      simp [splitNl, hcnl, hsp]
    have hMhead : (splitNl (c :: t)).map pyRStrip =
        (c :: pyRStrip m) :: ms.map pyRStrip := by
      rw [hhead, List.map_cons, pyRStrip_cons c m hc]
    have hMconcat : (splitNl (c :: t)).map pyRStrip =
        (L₀.map pyRStrip) ++ [l₀ ++ [c']] := by
      rw [hdec, hs2, List.map_append, List.map_cons, List.map_nil,
        pyRStrip_concat_keep l₀ c' hc']
    have hlfix : pyLStrip (joinNl ((splitNl (c :: t)).map pyRStrip)) =
        joinNl ((splitNl (c :: t)).map pyRStrip) := by
      rw [hMhead]
      obtain ⟨u, hu⟩ := joinNl_head_cons c (pyRStrip m) (ms.map pyRStrip)
      rw [hu]
      exact pyLStrip_cons_keep c u hc
    have hrfix : pyRStrip (joinNl ((splitNl (c :: t)).map pyRStrip)) =
        joinNl ((splitNl (c :: t)).map pyRStrip) := by
      rw [hMconcat]
      apply pyRStrip_joinNl_concat
      · intro l hl
        rcases List.mem_append.mp hl with hl | hl
        · obtain ⟨k, _, rfl⟩ := List.mem_map.mp hl
          exact pyRStrip_idem k
        · rw [List.mem_singleton.mp hl]
          exact pyRStrip_concat_keep l₀ c' hc'
      · simp
    rw [hy, hz]
    unfold pyStrip
    rw [hlfix, hrfix]

theorem normalize_of_normal (y : List Char) (h1 : '\r' ∉ y)
    (h2 : pyStrip y = y) (h3 : ∀ l ∈ splitNl y, pyRStrip l = l) :
    _normalize_output y = y := by
  simp only [_normalize_output]
  rw [replaceCRLF_fix y h1, replaceCR_fix y h1, h2]
  have hmap : (splitNl y).map pyRStrip = splitNl y := by
    have := List.map_congr_left (f := pyRStrip) (g := id) h3
    simpa using this
  rw [hmap, joinNl_splitNl]

/-- C9: output normalization is idempotent: normalizing an already
normalized text returns it unchanged. -/
theorem normalize_idempotent (x : List Char) :
    _normalize_output (_normalize_output x) = _normalize_output x :=
  normalize_of_normal _ (normalize_no_cr x) (normalize_strip_fix x)
    (normalize_lines_fix x)

/-! ## Helper lemmas for the sort and the test loop -/

theorem insertLe_perm {α : Type} (le : α → α → Bool) (a : α) (l : List α) :
    (insertLe le a l).Perm (a :: l) := by
  induction l with
  | nil => exact List.Perm.refl _
  | cons b bs ih =>
    by_cases hab : le a b = true
    · simp only [insertLe, if_pos hab]
      exact List.Perm.refl _
    · simp only [insertLe, if_neg hab]
      exact (ih.cons b).trans (List.Perm.swap a b bs)

theorem sortLe_perm {α : Type} (le : α → α → Bool) (l : List α) :
    (sortLe le l).Perm l := by
  induction l with
  | nil => exact List.Perm.refl _
  | cons a l ih =>
    exact (insertLe_perm le a (sortLe le l)).trans (ih.cons a)

theorem insertLe_chain {α : Type} (le : α → α → Bool)
    (htot : ∀ a b, le a b = true ∨ le b a = true) (a : α) (l : List α)
    (hl : List.Chain' (fun x y => le x y = true) l) :
    List.Chain' (fun x y => le x y = true) (insertLe le a l) := by
  induction l with
  | nil => simp [insertLe]
  | cons b bs ih =>
    by_cases hab : le a b = true
    · simp only [insertLe, if_pos hab]
      exact List.chain'_cons.mpr ⟨hab, hl⟩
    · simp only [insertLe, if_neg hab]
      have hba : le b a = true := (htot a b).resolve_left hab
      apply List.chain'_cons'.mpr
      refine ⟨?_, ih hl.tail⟩
      intro h hh
      rcases bs with _ | ⟨c, cs⟩
      · simp [insertLe] at hh
        subst hh
        exact hba
      · by_cases hac : le a c = true
        · simp [insertLe, if_pos hac] at hh
          subst hh
          exact hba
        · simp [insertLe, if_neg hac] at hh
          subst hh
          exact (List.chain'_cons.mp hl).1

theorem sortLe_chain {α : Type} (le : α → α → Bool)
    (htot : ∀ a b, le a b = true ∨ le b a = true) (l : List α) :
    List.Chain' (fun x y => le x y = true) (sortLe le l) := by
  induction l with
  | nil => simp [sortLe]
  | cons a l ih => exact insertLe_chain le htot a (sortLe le l) ih

theorem runLoop_spec (cases : List TestCase) :
    ∀ (ap : Bool) (logs : List (List Char)),
    runLoop cases ap logs =
      (ap && cases.all (fun tc => (caseDiagnostic tc).isNone),
        logs ++ cases.filterMap caseDiagnostic) := by
  induction cases with
  | nil => intro ap logs; simp [runLoop]
  | cons tc rest ih =>
    intro ap logs
    cases h : caseDiagnostic tc with
    | some msg => simp [runLoop, h, ih]
    | none => simp [runLoop, h, ih]

theorem caseDiagnostic_msg_ne_nil (tc : TestCase) (msg : List Char)
    (h : caseDiagnostic tc = some msg) : msg ≠ [] := by
  rcases hexp : tc.expectedOut with _ | expected
  · simp only [caseDiagnostic, hexp, Option.some.injEq] at h
    intro hnil
    rw [hnil] at h
    rw [List.append_assoc] at h
    exact absurd (List.append_eq_nil.mp h).1 (by decide)
  · simp only [caseDiagnostic, hexp] at h
    split_ifs at h with h1 h2
    · simp only [Option.some.injEq] at h
      intro hnil
      rw [hnil] at h
      simp only [List.append_assoc] at h
      exact absurd (List.append_eq_nil.mp h).1 (by decide)
    · simp only [Option.some.injEq] at h
      intro hnil
      rw [hnil] at h
      simp only [List.append_assoc] at h
      exact absurd (List.append_eq_nil.mp h).1 (by decide)

theorem joinLogs_eq_nil_iff (L : List (List Char)) (h : ∀ m ∈ L, m ≠ []) :
    (joinLogs L = [] ↔ L = []) := by
  rcases L with _ | ⟨l, ls⟩
  · simp [joinLogs]
  · rcases ls with _ | ⟨k, ks⟩
    · simpa [joinLogs] using h l (by simp)
    · constructor
      · intro hh
        exfalso
        have : joinLogs (l :: k :: ks) = l ++ "\n\n".toList ++ joinLogs (k :: ks) := rfl
        rw [this, List.append_assoc] at hh
        exact absurd (List.append_eq_nil.mp (List.append_eq_nil.mp hh).2).1 (by decide)
      · intro hh
        simp at hh

/-- C2: with a non-empty set of test-case input files (and the source file
present and compiling), `run_tests` walks every case in file-name sort
order, recording a diagnostic for each failing case and continuing; the
returned flag is true iff no case produced a diagnostic, and the returned
text is the blank-line-separated concatenation of the per-case diagnostic
blocks (empty iff all pass).  In particular, with three cases where only
case 2's expected-output file is absent, the run reports failure with a
diagnostic for case 2 only, cases 1 and 3 having been attempted and
passed. -/
theorem run_tests_aggregate (sp cerr : List Char) (cases : List TestCase)
    (hcases : cases ≠ []) :
    ((run_tests true sp 0 cerr cases).1 = true ↔
        ∀ tc ∈ cases, caseDiagnostic tc = none) ∧
      (run_tests true sp 0 cerr cases).2 =
        joinLogs ((sortLe (fun a b => nameLe a.inName b.inName) cases).filterMap
          caseDiagnostic) ∧
      ((run_tests true sp 0 cerr cases).2 = [] ↔
        (run_tests true sp 0 cerr cases).1 = true) ∧
      run_tests true [] 0 []
        [⟨"test_3".toList, some ['x'], 0, ['x'], []⟩,
         ⟨"test_1".toList, some ['a'], 0, ['a'], []⟩,
         ⟨"test_2".toList, none, 0, [], []⟩] =
        (false, "Missing expected output file: test_2.out".toList) := by
  have hperm := sortLe_perm (fun a b : TestCase => nameLe a.inName b.inName) cases
  have hne : sortLe (fun a b : TestCase => nameLe a.inName b.inName) cases ≠ [] := by
    intro h
    rw [h] at hperm
    exact hcases hperm.symm.eq_nil
  have hrt : run_tests true sp 0 cerr cases =
      ((sortLe (fun a b => nameLe a.inName b.inName) cases).all
          (fun tc => (caseDiagnostic tc).isNone),
        joinLogs ((sortLe (fun a b => nameLe a.inName b.inName) cases).filterMap
          caseDiagnostic)) := by
    simp only [run_tests]
    rw [if_neg (by simp), if_neg (by norm_num),
      if_neg (by simpa [List.isEmpty_iff] using hne), runLoop_spec]
    simp
  refine ⟨?_, ?_, ?_, by decide⟩
  · rw [hrt]
    simp only [List.all_eq_true, Option.isNone_iff_eq_none]
    exact ⟨fun h tc htc => h tc (hperm.mem_iff.mpr htc),
      fun h tc htc => h tc (hperm.mem_iff.mp htc)⟩
  · rw [hrt]
  · rw [hrt]
    have hmsg : ∀ m ∈ (sortLe (fun a b : TestCase => nameLe a.inName b.inName)
        cases).filterMap caseDiagnostic, m ≠ [] := by
      intro m hm
      obtain ⟨tc, _, htc⟩ := List.mem_filterMap.mp hm
      exact caseDiagnostic_msg_ne_nil tc m htc
    rw [joinLogs_eq_nil_iff _ hmsg]
    simp [List.filterMap_eq_nil_iff, List.all_eq_true, Option.isNone_iff_eq_none]

theorem run_tests_aggregate_witness :
    ([⟨"test_3".toList, some ['x'], 0, ['x'], []⟩,
      ⟨"test_1".toList, some ['a'], 0, ['a'], []⟩,
      ⟨"test_2".toList, none, 0, [], []⟩] : List TestCase) ≠ [] ∧
      ((run_tests true [] 0 []
          [⟨"test_3".toList, some ['x'], 0, ['x'], []⟩,
           ⟨"test_1".toList, some ['a'], 0, ['a'], []⟩,
           ⟨"test_2".toList, none, 0, [], []⟩]).2 = [] ↔
        (run_tests true [] 0 []
          [⟨"test_3".toList, some ['x'], 0, ['x'], []⟩,
           ⟨"test_1".toList, some ['a'], 0, ['a'], []⟩,
           ⟨"test_2".toList, none, 0, [], []⟩]).1 = true) :=
  ⟨by simp,
    (run_tests_aggregate [] []
      [⟨"test_3".toList, some ['x'], 0, ['x'], []⟩,
       ⟨"test_1".toList, some ['a'], 0, ['a'], []⟩,
       ⟨"test_2".toList, none, 0, [], []⟩] (by simp)).2.2.1⟩

/-- C4 counterexample: the daily-review query orders only by the due
date; with two stored rows sharing a due date, the problem with the larger
identifier stays first when stored first, so ties are not broken by the
Problem identifier as claimed. -/
theorem daily_review_counterexample :
    _populate_daily_review 10 [⟨2, 5⟩, ⟨1, 5⟩] = [⟨2, 5⟩, ⟨1, 5⟩] ∧
      (_populate_daily_review 10 [⟨2, 5⟩, ⟨1, 5⟩]).map ReviewRow.problemId ≠ [1, 2] :=
  ⟨by decide, by decide⟩

/-- C4 (amended): the daily-review query returns exactly the rows whose
`next_review_date` is at or before the end of the current day, ordered
ascending by due date (rows with equal due dates keep the stored order; no
secondary ordering by Problem identifier is requested). -/
theorem daily_review_query (end_of_today : ℚ) (rows : List ReviewRow) :
    (_populate_daily_review end_of_today rows).Perm
        (rows.filter fun r => decide (r.nextReviewDate ≤ end_of_today)) ∧
      List.Chain' (fun a b => a.nextReviewDate ≤ b.nextReviewDate)
        (_populate_daily_review end_of_today rows) ∧
      ∀ r, r ∈ _populate_daily_review end_of_today rows ↔
        (r ∈ rows ∧ r.nextReviewDate ≤ end_of_today) := by
  refine ⟨sortLe_perm _ _, ?_, ?_⟩
  · have hchain := sortLe_chain
      (fun a b : ReviewRow => decide (a.nextReviewDate ≤ b.nextReviewDate))
      (fun a b => by
        rcases le_total a.nextReviewDate b.nextReviewDate with h | h
        · exact Or.inl (by simpa using h)
        · exact Or.inr (by simpa using h))
      (rows.filter fun r => decide (r.nextReviewDate ≤ end_of_today))
    exact List.Chain'.imp (fun a b h => of_decide_eq_true h) hchain
  · intro r
    unfold _populate_daily_review
    rw [(sortLe_perm _ _).mem_iff, List.mem_filter]
    simp

/-- C3 counterexample: `_normalize_output` strips the whole text with
`str.strip()`, which also removes the first remaining line's own leading
whitespace, while the claim (dropping blank lines only and keeping the
remaining lines' leading characters intact) would keep it. -/
theorem normalize_counterexample :
    _normalize_output [' ', ' ', 'a'] = ['a'] ∧
      normalizeAsClaimed [' ', ' ', 'a'] = [' ', ' ', 'a'] ∧
      _normalize_output [' ', ' ', 'a'] ≠ normalizeAsClaimed [' ', ' ', 'a'] :=
  ⟨by decide, by decide, by decide⟩

/-- C3 (amended): `_normalize_output` replaces the line-ending variants
with `\n`, strips leading and trailing whitespace of the whole text
(including the first remaining line's own leading whitespace), and
right-trims every remaining line; a test output and an expected output are
graded equal iff their normalized forms are identical. -/
theorem normalize_amended (x : List Char) :
    '\r' ∉ _normalize_output x ∧
      pyStrip (_normalize_output x) = _normalize_output x ∧
      (∀ l, l ∈ splitNl (_normalize_output x) → pyRStrip l = l) ∧
      (∀ stem expected out err : List Char,
        caseDiagnostic ⟨stem, some expected, 0, out, err⟩ = none ↔
          _normalize_output out = _normalize_output expected) := by
  refine ⟨normalize_no_cr x, normalize_strip_fix x, normalize_lines_fix x, ?_⟩
  intro stem expected out err
  simp [caseDiagnostic]

theorem normalize_amended_witness :
    (['a'] ∈ splitNl (_normalize_output [' ', 'a', '\r', '\n'])) ∧
      pyRStrip ['a'] = ['a'] :=
  ⟨by decide, (normalize_amended [' ', 'a', '\r', '\n']).2.2.1 ['a'] (by decide)⟩
